import Mathlib

/-!
Shallow embedding of `src/run.py` of the srt-processor repository.

Texts are modelled as `List Char` (Python `len` counts code points, as does
`List.length`).  Python's `re.split(r'(?<=[。.!?])\s*', text)` is modelled by
`reSplitSentences`, a left-to-right scan that closes a unit after every
terminator character and then drops the following whitespace run, which is
exactly what the zero-width-lookbehind split does.  `str.strip` is modelled by
`strip`.  Python floats (retry delay, `60.0 / requests_per_minute`) are
modelled as exact rationals; only which delay value is slept where matters to
the properties below, not float rounding.
-/

namespace SrtProc

/-- The module constant `MAX_CHUNK_SIZE = 12000` of `run.py`. -/
def MAX_CHUNK_SIZE : Nat := 12000

/-- The terminator class `[。.!?]` of the `re.split` pattern in
`split_text_into_chunks`.  Note that the source class contains exactly these
four characters; the full-width `！` and `？` are absent. -/
def isTerm (c : Char) : Bool :=
  c = '。' || c = '.' || c = '!' || c = '?'

/-- Whitespace, as matched by Python's `\s` and stripped by `str.strip`
(the ASCII fragment; all inputs considered here are covered by it). -/
def pySpace (c : Char) : Bool :=
  c = ' ' || c = '\t' || c = '\n' || c = '\r' || c = '\x0b' || c = '\x0c'

/-- One pass of `re.split(r'(?<=[。.!?])\s*', text)`.  `skipping` is true
right after a unit was closed by a terminator, while the `\s*` part of the
pattern is still consuming whitespace; `acc` holds the reversed prefix of the
unit currently being accumulated (empty whenever `skipping` is true). -/
def reSplitGo : Bool → List Char → List Char → List (List Char)
  | _, [], acc => [acc.reverse]
  | skipping, c :: rest, acc =>
    if skipping && pySpace c then
      reSplitGo true rest acc
    else if isTerm c then
      (acc.reverse ++ [c]) :: reSplitGo true rest []
    else
      reSplitGo false rest (c :: acc)

/-- `sentences = re.split(r'(?<=[。.!?])\s*', text)` from
`split_text_into_chunks`. -/
def reSplitSentences (text : List Char) : List (List Char) :=
  reSplitGo false text []

/-- Python `str.strip()`: drop whitespace from both ends. -/
def strip (s : List Char) : List Char :=
  ((s.dropWhile pySpace).reverse.dropWhile pySpace).reverse

/-- Python `' '.join(parts)`. -/
def joinSpace : List (List Char) → List Char
  | [] => []
  | [u] => u
  | u :: us => u ++ ' ' :: joinSpace us

/-- The accumulation loop of `split_text_into_chunks`: `cur` is
`current_chunk`, `sz` is `current_size`. -/
def chunkLoop (maxSize : Nat) : List (List Char) → List (List Char) → Nat → List (List Char)
  | [], cur, _ => if cur = [] then [] else [joinSpace cur]
  | s :: rest, cur, sz =>
    let s' := strip s
    if s' = [] then
      chunkLoop maxSize rest cur sz
    else if maxSize < sz + s'.length + 1 ∧ cur ≠ [] then
      joinSpace cur :: chunkLoop maxSize rest [s'] (s'.length + 1)
    else
      chunkLoop maxSize rest (cur ++ [s']) (sz + s'.length + 1)

/-- `split_text_into_chunks(text, max_size)` from `run.py`. -/
def split_text_into_chunks (text : List Char) (max_size : Nat) : List (List Char) :=
  chunkLoop max_size (reSplitSentences text) [] 0

/-- The stripped, non-empty sentence units of a sentence list (the values the
loop body of `split_text_into_chunks` actually accumulates, in order). -/
def unitsOf : List (List Char) → List (List Char)
  | [] => []
  | s :: rest => if strip s = [] then unitsOf rest else strip s :: unitsOf rest

/-- The stripped, non-empty sentence units of an input text. -/
def sentenceUnits (text : List Char) : List (List Char) :=
  unitsOf (reSplitSentences text)

/-- Sum of `length + 1` over a unit list; this is the value `current_size`
holds after accumulating exactly these units. -/
def sizeSum : List (List Char) → Nat
  | [] => 0
  | u :: us => u.length + 1 + sizeSum us

example : reSplitSentences "ab. cd!ef".toList = ["ab.".toList, "cd!".toList, "ef".toList] := by decide

example : reSplitSentences "a.  ".toList = ["a.".toList, "".toList] := by decide

example : split_text_into_chunks "ab. c".toList 5 = ["ab.".toList, "c".toList] := by decide

example : split_text_into_chunks " a".toList 10 = ["a".toList] := by decide

example : split_text_into_chunks "ab！cd！ef".toList 3 = ["ab！cd！ef".toList] := by decide

/-- A provider handle (`providers/base.py`).  `run` models the side-effecting
`process(prompt)` call: the outcome of each network attempt is an input of the
model, indexed by the prompt and by the attempt number, since successive calls
to the same remote backend may behave differently.  An `Except.error` value is
a raised exception carrying its message. -/
structure Provider where
  name : String
  run : List Char → Nat → Except String (List Char)

/-- The fields `process_with_fallback` reads from `config['rate_limit']`
(`max_retries` defaults to 3, `retry_delay` to 5 when absent; the model holds
the values after that lookup). -/
structure RateConfig where
  max_retries : Nat
  retry_delay : ℚ
  requests_per_minute : ℚ

/-- The configuration consumed by `process_large_text`: the rate-limit section
and the prompt template of `config['processing']['prompt']`, a template with a
single `content` placeholder, modelled by the text before and after that
placeholder. -/
structure Config where
  rate : RateConfig
  prompt_pre : List Char
  prompt_post : List Char

/-- `prompt_template.format(content=chunk)`. -/
def formatPrompt (cfg : Config) (content : List Char) : List Char :=
  cfg.prompt_pre ++ content ++ cfg.prompt_post

/-- Observable events of a run, in order: a `provider.process` invocation
(`call`), the console error line naming the provider and the caught
exception, printed on a failed attempt (`log`), a `time.sleep(retry_delay)` between attempts of one provider
(`sleepRetry`), and a `time.sleep(60.0 / requests_per_minute)` between chunks
(`sleepRate`). -/
inductive Ev where
  | call (name : String) (attempt : Nat)
  | log (name : String) (err : String)
  | sleepRetry (d : ℚ)
  | sleepRate (d : ℚ)
deriving DecidableEq

deriving instance DecidableEq for Except

/-- Truth of an event being a provider invocation. -/
def Ev.isCall : Ev → Bool
  | .call _ _ => true
  | _ => false

/-- Truth of an event being a rate-window sleep. -/
def Ev.isRate : Ev → Bool
  | .sleepRate _ => true
  | _ => false

/-- The inner `for attempt in range(max_retries)` loop of
`process_with_fallback`, for one provider.  `remaining` is
`max_retries - attempt`, so the loop body with `attempt < max_retries - 1`
(sleep before the next attempt) corresponds to `remaining ≥ 2`, and
`remaining = 1` is the last attempt, after which no sleep happens.  Returns
the successful result, if any, together with the event trace. -/
def attemptLoop (p : Provider) (prompt : List Char) (retryDelay : ℚ) :
    Nat → Nat → Option (List Char) × List Ev
  | 0, _ => (none, [])
  | 1, attempt =>
    match p.run prompt attempt with
    | .ok r => (some r, [.call p.name attempt])
    | .error e => (none, [.call p.name attempt, .log p.name e])
  | (n + 2), attempt =>
    match p.run prompt attempt with
    | .ok r => (some r, [.call p.name attempt])
    | .error e =>
      let t := attemptLoop p prompt retryDelay (n + 1) (attempt + 1)
      (t.1, .call p.name attempt :: .log p.name e :: .sleepRetry retryDelay :: t.2)

/-- The outer provider loop of `process_with_fallback`: try each provider in
list order; on the first success return `(result, provider.name)`; when the
list is exhausted, raise `RuntimeError("All providers failed")`. -/
def fallbackGo (prompt : List Char) (cfg : RateConfig) :
    List Provider → Except String (List Char × String) × List Ev
  | [] => (.error "All providers failed", [])
  | p :: rest =>
    let t := attemptLoop p prompt cfg.retry_delay cfg.max_retries 0
    match t.1 with
    | some r => (.ok (r, p.name), t.2)
    | none => ((fallbackGo prompt cfg rest).1, t.2 ++ (fallbackGo prompt cfg rest).2)

/-- `process_with_fallback(providers, prompt, config)` from `run.py`. -/
def process_with_fallback (providers : List Provider) (prompt : List Char)
    (cfg : RateConfig) : Except String (List Char × String) × List Ev :=
  fallbackGo prompt cfg providers

/-- Concatenated dispatch traces of a provider list in which every provider
runs its attempt loop to the end (the shape the trace takes while the
dispatcher is falling through failing providers). -/
def concatTraces (prompt : List Char) (cfg : RateConfig) : List Provider → List Ev
  | [] => []
  | p :: rest =>
    (attemptLoop p prompt cfg.retry_delay cfg.max_retries 0).2 ++ concatTraces prompt cfg rest

/-- Python `'\n\n'.join(results)`. -/
def joinBlank : List (List Char) → List Char
  | [] => []
  | [r] => r
  | r :: rs => r ++ '\n' :: '\n' :: joinBlank rs

/-- The `for i, chunk in enumerate(chunks)` loop of `process_large_text`:
dispatch each chunk, collect results and the provider of the last chunk, and
sleep `60.0 / requests_per_minute` after every chunk except the last.  A
dispatch failure propagates immediately (the Python exception aborts the
loop), discarding results of earlier chunks. -/
def chunkRun (providers : List Provider) (cfg : Config) :
    List (List Char) → Except String (List (List Char) × Option String) × List Ev
  | [] => (.ok ([], none), [])
  | c :: rest =>
    let t := process_with_fallback providers (formatPrompt cfg c) cfg.rate
    match t.1 with
    | .error e => (.error e, t.2)
    | .ok (res, name) =>
      if rest = [] then (.ok ([res], some name), t.2)
      else
        let t2 := chunkRun providers cfg rest
        match t2.1 with
        | .error e =>
          (.error e, t.2 ++ Ev.sleepRate (60 / cfg.rate.requests_per_minute) :: t2.2)
        | .ok (results, lastP) =>
          (.ok (res :: results, lastP),
           t.2 ++ Ev.sleepRate (60 / cfg.rate.requests_per_minute) :: t2.2)

/-- `process_large_text(providers, raw_text, config)` from `run.py`: short
inputs are dispatched whole; long inputs are chunked with
`split_text_into_chunks` (at its default `MAX_CHUNK_SIZE`), each chunk
dispatched in order, and the results joined with a blank line.  The provider
reported is the one that produced the last chunk (`None` when no chunk was
processed). -/
def process_large_text (providers : List Provider) (raw_text : List Char)
    (cfg : Config) : Except String (List Char × Option String) × List Ev :=
  if raw_text.length ≤ MAX_CHUNK_SIZE then
    let t := process_with_fallback providers (formatPrompt cfg raw_text) cfg.rate
    (match t.1 with
     | .ok (res, name) => .ok (res, some name)
     | .error e => .error e, t.2)
  else
    let t := chunkRun providers cfg (split_text_into_chunks raw_text MAX_CHUNK_SIZE)
    (match t.1 with
     | .ok (results, lastP) => .ok (joinBlank results, lastP)
     | .error e => .error e, t.2)

/-- Head character check: true when the list is empty or starts with a
non-whitespace character. -/
def hns : List Char → Bool
  | [] => true
  | c :: _ => !pySpace c

/-- Last character check, via the reverse. -/
def lns (u : List Char) : Bool := hns u.reverse

/-- A unit is clean when stripping it changes nothing and it is non-empty;
exactly the units `split_text_into_chunks` accumulates. -/
def CleanU (u : List Char) : Prop := strip u = u ∧ u ≠ []

/-- Number of provider invocations recorded in a trace. -/
def callCount (tr : List Ev) : Nat := (tr.filter Ev.isCall).length

/-- Test fixture: a provider that fails every attempt with error `boom`. -/
def pFail : Provider := ⟨"F", fun _ _ => Except.error "boom"⟩

/-- Test fixture: a provider that succeeds on every attempt with result `r`. -/
def pOkP : Provider := ⟨"P", fun _ _ => Except.ok "r".toList⟩

/-- Test fixture: a further always-succeeding provider, used as a later
fallback that must never be reached. -/
def pC : Provider := ⟨"C", fun _ _ => Except.ok "c".toList⟩

/-- Test fixture: a rate configuration with 3 retries, a 5 second retry delay
and 60 requests per minute. -/
def cfg3 : RateConfig := ⟨3, 5, 60⟩

/-- Test fixture: a full configuration around `cfg3`. -/
def cfgC : Config := ⟨cfg3, "pre ".toList, " post".toList⟩

/-! Basic facts about `joinSpace` and `strip`. -/

lemma joinSpace_cons_cons (u v : List Char) (us : List (List Char)) :
    joinSpace (u :: v :: us) = u ++ ' ' :: joinSpace (v :: us) := rfl

lemma joinSpace_append {A B : List (List Char)} (hA : A ≠ []) (hB : B ≠ []) :
    joinSpace (A ++ B) = joinSpace A ++ ' ' :: joinSpace B := by
  induction A with
  | nil => exact absurd rfl hA
  | cons a A ih =>
    cases A with
    | nil =>
      cases B with
      | nil => exact absurd rfl hB
      | cons b B => simp [joinSpace_cons_cons, joinSpace]
    | cons a' A' =>
      have h1 : joinSpace ((a :: a' :: A') ++ B)
          = a ++ ' ' :: joinSpace ((a' :: A') ++ B) := rfl
      rw [h1, ih (by simp), joinSpace_cons_cons, List.append_assoc]
      rfl

lemma dropWhile_eq_self_of_hns {u : List Char} (h : hns u = true) :
    u.dropWhile pySpace = u := by
  cases u with
  | nil => rfl
  | cons c t =>
    simp only [hns, Bool.not_eq_true'] at h
    simp [List.dropWhile_cons, h]

lemma strip_eq_self {u : List Char} (h1 : hns u = true) (h2 : lns u = true) :
    strip u = u := by
  unfold strip
  rw [dropWhile_eq_self_of_hns h1, dropWhile_eq_self_of_hns h2, List.reverse_reverse]

lemma hns_dropWhile (u : List Char) : hns (u.dropWhile pySpace) = true := by
  induction u with
  | nil => rfl
  | cons c t ih =>
    by_cases h : pySpace c
    · simpa [List.dropWhile_cons, h] using ih
    · simp [List.dropWhile_cons, h, hns]

lemma dropWhile_suffix_part (p : Char → Bool) :
    ∀ l : List Char, ∃ w, l = w ++ l.dropWhile p := by
  intro l
  induction l with
  | nil => exact ⟨[], rfl⟩
  | cons c t ih =>
    by_cases h : p c
    · obtain ⟨w, hw⟩ := ih
      refine ⟨c :: w, ?_⟩
      simpa [List.dropWhile_cons, h] using hw
    · exact ⟨[], by simp [List.dropWhile_cons, h]⟩

lemma lns_strip (u : List Char) : lns (strip u) = true := by
  unfold lns strip
  rw [List.reverse_reverse]
  exact hns_dropWhile _

lemma hns_strip (u : List Char) : hns (strip u) = true := by
  cases hst : strip u with
  | nil => rfl
  | cons c t =>
    obtain ⟨w, hw⟩ := dropWhile_suffix_part pySpace (u.dropWhile pySpace).reverse
    have hv : u.dropWhile pySpace
        = ((u.dropWhile pySpace).reverse.dropWhile pySpace).reverse ++ w.reverse := by
      have h2 := congrArg List.reverse hw
      simpa [List.reverse_append] using h2
    have hv' : u.dropWhile pySpace = c :: (t ++ w.reverse) := by
      rw [hv, show ((u.dropWhile pySpace).reverse.dropWhile pySpace).reverse = strip u
        from rfl, hst]
      simp
    have h3 := hns_dropWhile u
    rw [hv'] at h3
    simpa [hns] using h3

lemma strip_idem (u : List Char) : strip (strip u) = strip u :=
  strip_eq_self (hns_strip u) (lns_strip u)

lemma hns_of_clean {u : List Char} (h : CleanU u) : hns u = true :=
  h.1 ▸ hns_strip u

lemma lns_of_clean {u : List Char} (h : CleanU u) : lns u = true :=
  h.1 ▸ lns_strip u

lemma hns_append {u : List Char} (v : List Char) (hu : u ≠ []) :
    hns (u ++ v) = hns u := by
  cases u with
  | nil => exact absurd rfl hu
  | cons c t => rfl

lemma lns_append (u : List Char) {v : List Char} (hv : v ≠ []) :
    lns (u ++ v) = lns v := by
  unfold lns
  rw [List.reverse_append, hns_append _ (by simpa using hv)]

lemma joinSpace_ne_nil {G : List (List Char)} (hG : G ≠ [])
    (h1 : ∀ u ∈ G, u ≠ []) : joinSpace G ≠ [] := by
  cases G with
  | nil => exact absurd rfl hG
  | cons u rest =>
    cases rest with
    | nil => exact h1 u (by simp)
    | cons v rest' => simp [joinSpace_cons_cons]

lemma hns_joinSpace {G : List (List Char)} (hG : G ≠ [])
    (h : ∀ u ∈ G, CleanU u) : hns (joinSpace G) = true := by
  cases G with
  | nil => exact absurd rfl hG
  | cons u rest =>
    cases rest with
    | nil => exact hns_of_clean (h u (by simp))
    | cons v rest' =>
      rw [joinSpace_cons_cons, hns_append _ (h u (by simp)).2]
      exact hns_of_clean (h u (by simp))

lemma lns_joinSpace {G : List (List Char)} (hG : G ≠ [])
    (h : ∀ u ∈ G, CleanU u) : lns (joinSpace G) = true := by
  induction G with
  | nil => exact absurd rfl hG
  | cons u rest ih =>
    cases rest with
    | nil => exact lns_of_clean (h u (by simp))
    | cons v rest' =>
      have hXne : joinSpace (v :: rest') ≠ [] :=
        joinSpace_ne_nil (by simp) (fun w hw => (h w (by simp [hw])).2)
      rw [joinSpace_cons_cons, lns_append _ (by simp),
        show (' ' :: joinSpace (v :: rest')) = [' '] ++ joinSpace (v :: rest') from rfl,
        lns_append _ hXne]
      exact ih (by simp) (fun w hw => h w (by simp [hw]))

lemma clean_joinSpace {G : List (List Char)} (hG : G ≠ [])
    (h : ∀ u ∈ G, CleanU u) : strip (joinSpace G) = joinSpace G :=
  strip_eq_self (hns_joinSpace hG h) (lns_joinSpace hG h)

/-! Facts about the accumulation loop of `split_text_into_chunks`. -/

lemma chunkLoop_ne_nil (m : Nat) (sents : List (List Char)) :
    ∀ cur sz, cur ≠ [] → chunkLoop m sents cur sz ≠ [] := by
  induction sents with
  | nil => intro cur sz h; simp [chunkLoop, h]
  | cons s rest ih =>
    intro cur sz h
    by_cases h1 : strip s = []
    · simpa [chunkLoop, h1] using ih cur sz h
    · by_cases h2 : m < sz + (strip s).length + 1 ∧ cur ≠ []
      · simp [chunkLoop, h1, h2]
      · simpa [chunkLoop, h1, h2] using ih (cur ++ [strip s]) _ (by simp)

lemma chunkLoop_join (m : Nat) (sents : List (List Char)) :
    ∀ cur sz, joinSpace (chunkLoop m sents cur sz) = joinSpace (cur ++ unitsOf sents) := by
  induction sents with
  | nil =>
    intro cur sz
    by_cases h : cur = [] <;> simp [chunkLoop, h, unitsOf, joinSpace]
  | cons s rest ih =>
    intro cur sz
    by_cases h1 : strip s = []
    · rw [show chunkLoop m (s :: rest) cur sz = chunkLoop m rest cur sz
        from by simp [chunkLoop, h1]]
      rw [ih, show unitsOf (s :: rest) = unitsOf rest from by simp [unitsOf, h1]]
    · have hu : unitsOf (s :: rest) = strip s :: unitsOf rest := by simp [unitsOf, h1]
      by_cases h2 : m < sz + (strip s).length + 1 ∧ cur ≠ []
      · rw [show chunkLoop m (s :: rest) cur sz
            = joinSpace cur :: chunkLoop m rest [strip s] ((strip s).length + 1)
          from by simp [chunkLoop, h1, h2]]
        obtain ⟨l, ls, hL⟩ := List.exists_cons_of_ne_nil
          (chunkLoop_ne_nil m rest [strip s] ((strip s).length + 1) (by simp))
        rw [hL, joinSpace_cons_cons, ← hL, ih [strip s] ((strip s).length + 1), hu,
          joinSpace_append h2.2 (by simp)]
        rfl
      · rw [show chunkLoop m (s :: rest) cur sz
            = chunkLoop m rest (cur ++ [strip s]) (sz + (strip s).length + 1)
          from by simp [chunkLoop, h1, h2]]
        rw [ih, hu, List.append_assoc]
        rfl

lemma chunkLoop_clean (m : Nat) (sents : List (List Char)) :
    ∀ cur sz, (∀ u ∈ cur, CleanU u) →
      ∀ c ∈ chunkLoop m sents cur sz, strip c = c := by
  induction sents with
  | nil =>
    intro cur sz hcur c hc
    by_cases h : cur = []
    · simp [chunkLoop, h] at hc
    · simp only [chunkLoop, if_neg h, List.mem_singleton] at hc
      subst hc
      exact clean_joinSpace h hcur
  | cons s rest ih =>
    intro cur sz hcur c hc
    by_cases h1 : strip s = []
    · rw [show chunkLoop m (s :: rest) cur sz = chunkLoop m rest cur sz
        from by simp [chunkLoop, h1]] at hc
      exact ih cur sz hcur c hc
    · have hcs : CleanU (strip s) := ⟨strip_idem s, h1⟩
      by_cases h2 : m < sz + (strip s).length + 1 ∧ cur ≠ []
      · rw [show chunkLoop m (s :: rest) cur sz
            = joinSpace cur :: chunkLoop m rest [strip s] ((strip s).length + 1)
          from by simp [chunkLoop, h1, h2]] at hc
        rcases List.mem_cons.mp hc with hc | hc
        · subst hc; exact clean_joinSpace h2.2 hcur
        · refine ih [strip s] _ ?_ c hc
          intro u hu
          rw [List.mem_singleton.mp hu]
          exact hcs
      · rw [show chunkLoop m (s :: rest) cur sz
            = chunkLoop m rest (cur ++ [strip s]) (sz + (strip s).length + 1)
          from by simp [chunkLoop, h1, h2]] at hc
        refine ih (cur ++ [strip s]) _ ?_ c hc
        intro u hu
        rcases List.mem_append.mp hu with hu | hu
        · exact hcur u hu
        · rw [List.mem_singleton.mp hu]
          exact hcs

lemma map_strip_eq_self {l : List (List Char)} (h : ∀ c ∈ l, strip c = c) :
    l.map strip = l := by
  induction l with
  | nil => rfl
  | cons c t ih =>
    rw [List.map_cons, h c (by simp), ih (fun x hx => h x (by simp [hx]))]

lemma sizeSum_append (A B : List (List Char)) :
    sizeSum (A ++ B) = sizeSum A + sizeSum B := by
  induction A with
  | nil => simp [sizeSum]
  | cons a A ih =>
    show a.length + 1 + sizeSum (A ++ B) = a.length + 1 + sizeSum A + sizeSum B
    rw [ih]
    omega

lemma joinSpace_length {U : List (List Char)} (h : U ≠ []) :
    (joinSpace U).length + 1 = sizeSum U := by
  induction U with
  | nil => exact absurd rfl h
  | cons u rest ih =>
    cases rest with
    | nil => simp [joinSpace, sizeSum]
    | cons v rest' =>
      have h2 := ih (by simp)
      rw [joinSpace_cons_cons,
        show sizeSum (u :: v :: rest') = u.length + 1 + sizeSum (v :: rest') from rfl,
        ← h2]
      simp [List.length_append]
      omega

lemma chunkLoop_single (m : Nat) (sents : List (List Char)) :
    ∀ cur sz, sz = sizeSum cur → sz + sizeSum (unitsOf sents) ≤ m →
      cur ++ unitsOf sents ≠ [] →
      chunkLoop m sents cur sz = [joinSpace (cur ++ unitsOf sents)] := by
  induction sents with
  | nil =>
    intro cur sz _ _ h3
    simp only [unitsOf, List.append_nil] at h3 ⊢
    simp [chunkLoop, h3]
  | cons s rest ih =>
    intro cur sz h1 h2 h3
    by_cases hs : strip s = []
    · have hu : unitsOf (s :: rest) = unitsOf rest := by simp [unitsOf, hs]
      rw [hu] at h2 h3 ⊢
      rw [show chunkLoop m (s :: rest) cur sz = chunkLoop m rest cur sz
        from by simp [chunkLoop, hs]]
      exact ih cur sz h1 h2 h3
    · have hu : unitsOf (s :: rest) = strip s :: unitsOf rest := by simp [unitsOf, hs]
      have hsize : sizeSum (unitsOf (s :: rest))
          = (strip s).length + 1 + sizeSum (unitsOf rest) := by rw [hu]; rfl
      have hfit : ¬ m < sz + (strip s).length + 1 := by omega
      rw [show chunkLoop m (s :: rest) cur sz
          = chunkLoop m rest (cur ++ [strip s]) (sz + (strip s).length + 1)
        from by simp [chunkLoop, hs, hfit]]
      rw [hu, ih (cur ++ [strip s]) (sz + (strip s).length + 1)
        (by rw [sizeSum_append, h1]; simp only [sizeSum]; omega)
        (by omega)
        (by simp), List.append_assoc]
      rfl

lemma chunkLoop_bound (m : Nat) (sents : List (List Char)) :
    ∀ cur sz, sz = sizeSum cur →
      (cur ≠ [] → sz ≤ m + 1 ∨ ∃ u, cur = [u]) →
      ∀ c ∈ chunkLoop m sents cur sz, c.length ≤ m ∨ (c ∈ cur ∨ c ∈ unitsOf sents) := by
  induction sents with
  | nil =>
    intro cur sz h1 h2 c hc
    by_cases h : cur = []
    · simp [chunkLoop, h] at hc
    · simp only [chunkLoop, if_neg h, List.mem_singleton] at hc
      subst hc
      rcases h2 h with h3 | ⟨u, h4⟩
      · left
        have h5 := joinSpace_length h
        omega
      · right; left
        subst h4
        simp [joinSpace]
  | cons s rest ih =>
    intro cur sz h1 h2 c hc
    by_cases hs : strip s = []
    · rw [show chunkLoop m (s :: rest) cur sz = chunkLoop m rest cur sz
        from by simp [chunkLoop, hs]] at hc
      have h4 := ih cur sz h1 h2 c hc
      simpa [unitsOf, hs] using h4
    · have hu : unitsOf (s :: rest) = strip s :: unitsOf rest := by simp [unitsOf, hs]
      by_cases h3 : m < sz + (strip s).length + 1 ∧ cur ≠ []
      · rw [show chunkLoop m (s :: rest) cur sz
            = joinSpace cur :: chunkLoop m rest [strip s] ((strip s).length + 1)
          from by simp [chunkLoop, hs, h3]] at hc
        rcases List.mem_cons.mp hc with hc | hc
        · subst hc
          rcases h2 h3.2 with h4 | ⟨u, h5⟩
          · left
            have h6 := joinSpace_length h3.2
            omega
          · right; left
            subst h5
            simp [joinSpace]
        · have h4 := ih [strip s] ((strip s).length + 1)
            (by simp [sizeSum]) (fun _ => Or.inr ⟨strip s, rfl⟩) c hc
          rcases h4 with h4 | h4 | h4
          · exact Or.inl h4
          · right; right
            rw [hu, List.mem_singleton.mp h4]
            exact List.mem_cons_self _ _
          · right; right
            rw [hu]
            exact List.mem_cons_of_mem _ h4
      · rw [show chunkLoop m (s :: rest) cur sz
            = chunkLoop m rest (cur ++ [strip s]) (sz + (strip s).length + 1)
          from by simp [chunkLoop, hs, h3]] at hc
        have hnew : sz + (strip s).length + 1 ≤ m + 1 ∨ ∃ u, cur ++ [strip s] = [u] := by
          rcases not_and_or.mp h3 with h4 | h4
          · left; omega
          · right
            rw [not_not.mp h4]
            exact ⟨strip s, rfl⟩
        have h4 := ih (cur ++ [strip s]) (sz + (strip s).length + 1)
          (by rw [sizeSum_append, h1]; simp only [sizeSum]; omega)
          (fun _ => hnew) c hc
        rcases h4 with h4 | h4 | h4
        · exact Or.inl h4
        · rcases List.mem_append.mp h4 with h5 | h5
          · exact Or.inr (Or.inl h5)
          · right; right
            rw [hu, List.mem_singleton.mp h5]
            exact List.mem_cons_self _ _
        · right; right
          rw [hu]
          exact List.mem_cons_of_mem _ h4

lemma chunkLoop_oversized (m : Nat) (sents : List (List Char)) :
    ∀ cur sz u, sz = sizeSum cur → m < u.length →
      (u ∈ cur → cur = [u]) →
      (u ∈ cur ∨ u ∈ unitsOf sents) →
      u ∈ chunkLoop m sents cur sz := by
  induction sents with
  | nil =>
    intro cur sz u h1 h2 h3 h4
    rcases h4 with h4 | h4
    · rw [h3 h4]
      simp [chunkLoop, joinSpace]
    · simp [unitsOf] at h4
  | cons s rest ih =>
    intro cur sz u h1 h2 h3 h4
    by_cases hs : strip s = []
    · rw [show chunkLoop m (s :: rest) cur sz = chunkLoop m rest cur sz
        from by simp [chunkLoop, hs]]
      refine ih cur sz u h1 h2 h3 ?_
      rcases h4 with h4 | h4
      · exact Or.inl h4
      · right
        rw [show unitsOf (s :: rest) = unitsOf rest from by simp [unitsOf, hs]] at h4
        exact h4
    · have hu : unitsOf (s :: rest) = strip s :: unitsOf rest := by simp [unitsOf, hs]
      rcases h4 with h4 | h4
      · -- the oversized unit already sits alone in the current chunk
        have hcur := h3 h4
        subst hcur
        have hsz : sz = u.length + 1 := by rw [h1]; simp [sizeSum]
        have hclose : m < sz + (strip s).length + 1 ∧ ([u] : List (List Char)) ≠ [] :=
          ⟨by omega, by simp⟩
        rw [show chunkLoop m (s :: rest) [u] sz
            = joinSpace [u] :: chunkLoop m rest [strip s] ((strip s).length + 1)
          from by simp [chunkLoop, hs, hclose]]
        left
      · rw [hu] at h4
        rcases List.mem_cons.mp h4 with h4 | h4
        · -- the oversized unit is the next sentence unit
          subst h4
          by_cases hcur : cur = []
          · subst hcur
            have hnoclose : ¬ (m < sz + (strip s).length + 1 ∧ ([] : List (List Char)) ≠ []) := by
              simp
            rw [show chunkLoop m (s :: rest) [] sz
                = chunkLoop m rest [strip s] (sz + (strip s).length + 1)
              from by simp [chunkLoop, hs, hnoclose]]
            refine ih [strip s] _ (strip s) ?_ h2 (fun _ => rfl) (Or.inl (by simp))
            rw [h1]
            simp [sizeSum]
          · have hclose : m < sz + (strip s).length + 1 ∧ cur ≠ [] := ⟨by omega, hcur⟩
            rw [show chunkLoop m (s :: rest) cur sz
                = joinSpace cur :: chunkLoop m rest [strip s] ((strip s).length + 1)
              from by simp [chunkLoop, hs, hclose]]
            right
            exact ih [strip s] _ (strip s) (by simp [sizeSum]) h2 (fun _ => rfl)
              (Or.inl (by simp))
        · -- the oversized unit occurs later in the sentence list
          by_cases h5 : m < sz + (strip s).length + 1 ∧ cur ≠ []
          · rw [show chunkLoop m (s :: rest) cur sz
                = joinSpace cur :: chunkLoop m rest [strip s] ((strip s).length + 1)
              from by simp [chunkLoop, hs, h5]]
            right
            refine ih [strip s] _ u (by simp [sizeSum]) h2 ?_ (Or.inr h4)
            intro h6
            rw [List.mem_singleton.mp h6]
          · rw [show chunkLoop m (s :: rest) cur sz
                = chunkLoop m rest (cur ++ [strip s]) (sz + (strip s).length + 1)
              from by simp [chunkLoop, hs, h5]]
            refine ih (cur ++ [strip s]) _ u
              (by rw [sizeSum_append, h1]; simp only [sizeSum]; omega) h2 ?_ (Or.inr h4)
            intro h6
            rcases List.mem_append.mp h6 with h7 | h7
            · -- impossible: an oversized unit inside `cur` forces the close branch
              have h8 := h3 h7
              subst h8
              have : sz = u.length + 1 := by rw [h1]; simp [sizeSum]
              exact absurd ⟨by omega, by simp⟩ h5
            · have h8 := List.mem_singleton.mp h7
              subst h8
              -- u = strip s is oversized, so the fit test cannot have passed
              rcases not_and_or.mp h5 with h9 | h9
              · exact absurd (by omega) h9
              · rw [not_not.mp h9]
                rfl

/-! Facts about the sentence segmentation `reSplitSentences`. -/

lemma mem_of_mem_dropLast {α : Type} {l : List α} {a : α} (h : a ∈ l.dropLast) :
    a ∈ l := by
  induction l with
  | nil => simp at h
  | cons x t ih =>
    cases t with
    | nil => simp at h
    | cons y t' =>
      rcases List.mem_cons.mp h with h | h
      · simp [h]
      · exact List.mem_cons_of_mem _ (ih h)

lemma mem_of_mem_tail_part {α : Type} {l : List α} {a : α} (h : a ∈ l.tail) :
    a ∈ l := by
  cases l with
  | nil => simp at h
  | cons x t => exact List.mem_cons_of_mem _ h

lemma isTerm_not_space {c : Char} (h : isTerm c = true) : pySpace c = false := by
  simp only [isTerm, Bool.or_eq_true, decide_eq_true_eq] at h
  rcases h with ((h | h) | h) | h <;> subst h <;> decide

lemma hns_of_all {u : List Char} (h : ∀ c ∈ u, pySpace c = false) : hns u = true := by
  cases u with
  | nil => rfl
  | cons c t => simp [hns, h c (by simp)]

lemma reSplitGo_ne_nil (l : List Char) :
    ∀ skipping acc, reSplitGo skipping l acc ≠ [] := by
  induction l with
  | nil => intro skipping acc; simp [reSplitGo]
  | cons ch rest ih =>
    intro skipping acc
    by_cases h1 : (skipping && pySpace ch) = true
    · simpa [reSplitGo, h1] using ih true acc
    · by_cases h2 : isTerm ch = true
      · simp [reSplitGo, h1, h2]
      · simpa [reSplitGo, h1, h2] using ih false (ch :: acc)

lemma reSplitGo_units (l : List Char) :
    ∀ skipping acc, (∀ c ∈ acc, isTerm c = false) →
      (∀ u ∈ reSplitGo skipping l acc, ∀ c ∈ u.dropLast, isTerm c = false)
      ∧ (∀ u ∈ (reSplitGo skipping l acc).dropLast,
          ∃ c, u.getLast? = some c ∧ isTerm c = true) := by
  induction l with
  | nil =>
    intro skipping acc hacc
    constructor
    · intro u hu c hc
      rw [show reSplitGo skipping [] acc = [acc.reverse] from by simp [reSplitGo]] at hu
      rw [List.mem_singleton.mp hu] at hc
      exact hacc c (List.mem_reverse.mp (mem_of_mem_dropLast hc))
    · intro u hu
      rw [show reSplitGo skipping [] acc = [acc.reverse] from by simp [reSplitGo]] at hu
      simp at hu
  | cons ch rest ih =>
    intro skipping acc hacc
    by_cases h1 : (skipping && pySpace ch) = true
    · rw [show reSplitGo skipping (ch :: rest) acc = reSplitGo true rest acc
        from by simp [reSplitGo, h1]]
      exact ih true acc hacc
    · by_cases h2 : isTerm ch = true
      · rw [show reSplitGo skipping (ch :: rest) acc
            = (acc.reverse ++ [ch]) :: reSplitGo true rest []
          from by simp [reSplitGo, h1, h2]]
        obtain ⟨ihA, ihB⟩ := ih true [] (by simp)
        constructor
        · intro u hu c hc
          rcases List.mem_cons.mp hu with hu | hu
          · rw [hu, List.dropLast_concat] at hc
            exact hacc c (List.mem_reverse.mp hc)
          · exact ihA u hu c hc
        · intro u hu
          obtain ⟨y, ys, hys⟩ :=
            List.exists_cons_of_ne_nil (reSplitGo_ne_nil rest true [])
          rw [hys] at hu
          rcases List.mem_cons.mp hu with hu | hu
          · exact ⟨ch, by rw [hu, List.getLast?_concat], h2⟩
          · rw [← hys] at hu
            exact ihB u hu
      · rw [show reSplitGo skipping (ch :: rest) acc = reSplitGo false rest (ch :: acc)
          from by simp [reSplitGo, h1, h2]]
        refine ih false (ch :: acc) ?_
        intro c hc
        rcases List.mem_cons.mp hc with hc | hc
        · rw [hc]
          exact Bool.not_eq_true _ ▸ h2
        · exact hacc c hc

lemma reSplitGo_head_acc (l : List Char) :
    ∀ acc, ∃ t, (reSplitGo false l acc).head? = some (acc.reverse ++ t) := by
  induction l with
  | nil => intro acc; exact ⟨[], by simp [reSplitGo]⟩
  | cons ch rest ih =>
    intro acc
    by_cases h2 : isTerm ch = true
    · exact ⟨[ch], by simp [reSplitGo, h2]⟩
    · obtain ⟨t, ht⟩ := ih (ch :: acc)
      refine ⟨ch :: t, ?_⟩
      rw [show reSplitGo false (ch :: rest) acc = reSplitGo false rest (ch :: acc)
        from by simp [reSplitGo, h2], ht]
      simp

lemma reSplitGo_tail_hns (l : List Char) :
    ∀ skipping acc, (skipping = true → acc = []) →
      (∀ u ∈ (reSplitGo skipping l acc).tail, hns u = true)
      ∧ (skipping = true → ∀ u ∈ reSplitGo skipping l acc, hns u = true) := by
  induction l with
  | nil =>
    intro skipping acc hsk
    constructor
    · intro u hu
      rw [show reSplitGo skipping [] acc = [acc.reverse] from by simp [reSplitGo]] at hu
      simp at hu
    · intro h u hu
      rw [show reSplitGo skipping [] acc = [acc.reverse] from by simp [reSplitGo],
        hsk h] at hu
      rw [List.mem_singleton.mp hu]
      rfl
  | cons ch rest ih =>
    intro skipping acc hsk
    by_cases h1 : (skipping && pySpace ch) = true
    · have hskip : skipping = true := ((Bool.and_eq_true _ _).mp h1).1
      rw [show reSplitGo skipping (ch :: rest) acc = reSplitGo true rest acc
        from by simp [reSplitGo, h1]]
      obtain ⟨iha, ihb⟩ := ih true acc (fun _ => hsk hskip)
      exact ⟨fun u hu => ihb rfl u (mem_of_mem_tail_part hu), fun _ => ihb rfl⟩
    · by_cases h2 : isTerm ch = true
      · rw [show reSplitGo skipping (ch :: rest) acc
            = (acc.reverse ++ [ch]) :: reSplitGo true rest []
          from by simp [reSplitGo, h1, h2]]
        obtain ⟨iha, ihb⟩ := ih true [] (fun _ => rfl)
        constructor
        · intro u hu
          exact ihb rfl u hu
        · intro hskip u hu
          rcases List.mem_cons.mp hu with hu | hu
          · rw [hu, hsk hskip]
            simp [hns, isTerm_not_space h2]
          · exact ihb rfl u hu
      · rw [show reSplitGo skipping (ch :: rest) acc = reSplitGo false rest (ch :: acc)
          from by simp [reSplitGo, h1, h2]]
        obtain ⟨iha, ihb⟩ := ih false (ch :: acc) (fun h => nomatch h)
        refine ⟨iha, ?_⟩
        intro hskip u hu
        have hacc0 : acc = [] := hsk hskip
        have hsp : pySpace ch = false := by
          subst hskip
          simpa using h1
        obtain ⟨y, ys, hys⟩ :=
          List.exists_cons_of_ne_nil (reSplitGo_ne_nil rest false (ch :: acc))
        obtain ⟨t, ht⟩ := reSplitGo_head_acc rest (ch :: acc)
        rw [hys] at ht hu
        have hy : y = (ch :: acc).reverse ++ t := by
          simpa using ht
        rcases List.mem_cons.mp hu with hu | hu
        · rw [hu, hy, hacc0]
          simp [hns, hsp]
        · have := iha u
          rw [hys] at this
          exact this hu

lemma reSplitGo_all_plain (l : List Char) :
    ∀ acc, (∀ c ∈ l, isTerm c = false ∧ pySpace c = false) →
      reSplitGo false l acc = [acc.reverse ++ l] := by
  induction l with
  | nil => intro acc _; simp [reSplitGo]
  | cons ch rest ih =>
    intro acc h
    have h0 := h ch (by simp)
    rw [show reSplitGo false (ch :: rest) acc = reSplitGo false rest (ch :: acc)
      from by simp [reSplitGo, h0.1],
      ih (ch :: acc) (fun c hc => h c (by simp [hc]))]
    simp

lemma strip_all_plain {l : List Char} (h : ∀ c ∈ l, pySpace c = false) :
    strip l = l :=
  strip_eq_self (hns_of_all h)
    (hns_of_all (fun c hc => h c (List.mem_reverse.mp hc)))

lemma split_all_plain {l : List Char} (m : Nat)
    (hplain : ∀ c ∈ l, isTerm c = false ∧ pySpace c = false) (hne : l ≠ []) :
    split_text_into_chunks l m = [l] := by
  have h1 : reSplitSentences l = [l] := by
    rw [reSplitSentences, reSplitGo_all_plain l [] hplain]
    simp
  have hstrip : strip l = l := strip_all_plain (fun c hc => (hplain c hc).2)
  unfold split_text_into_chunks
  rw [h1,
    show chunkLoop m [l] [] 0 = chunkLoop m [] [l] (0 + l.length + 1)
      from by simp [chunkLoop, hstrip, hne]]
  simp [chunkLoop, joinSpace]

/-! Facts about the retry loop and the fallback loop of
`process_with_fallback`. -/

lemma attemptLoop_none (p : Provider) (prompt : List Char) (d : ℚ) :
    ∀ n a, (∀ i, ∃ e, p.run prompt i = Except.error e) →
      (attemptLoop p prompt d n a).1 = none := by
  intro n
  induction n using Nat.strong_induction_on with
  | _ n ih =>
    intro a hf
    match n with
    | 0 => rfl
    | 1 =>
      obtain ⟨e, he⟩ := hf a
      simp [attemptLoop, he]
    | (k + 2) =>
      obtain ⟨e, he⟩ := hf a
      simp only [attemptLoop, he]
      exact ih (k + 1) (by omega) (a + 1) hf

lemma attemptLoop_some (p : Provider) (prompt : List Char) (d : ℚ) :
    ∀ n a k r, k < n →
      (∀ j, j < k → ∃ e, p.run prompt (a + j) = Except.error e) →
      p.run prompt (a + k) = Except.ok r →
      (attemptLoop p prompt d n a).1 = some r := by
  intro n
  induction n using Nat.strong_induction_on with
  | _ n ih =>
    intro a k r hk hbefore hsucc
    match n with
    | 0 => omega
    | 1 =>
      have hk0 : k = 0 := by omega
      subst hk0
      rw [show a + 0 = a from rfl] at hsucc
      simp [attemptLoop, hsucc]
    | (m + 2) =>
      cases k with
      | zero =>
        rw [show a + 0 = a from rfl] at hsucc
        simp [attemptLoop, hsucc]
      | succ k2 =>
        obtain ⟨e, he⟩ := hbefore 0 (by omega)
        rw [show a + 0 = a from rfl] at he
        simp only [attemptLoop, he]
        refine ih (m + 1) (by omega) (a + 1) k2 r (by omega) ?_ ?_
        · intro j hj
          obtain ⟨e2, he2⟩ := hbefore (j + 1) (by omega)
          exact ⟨e2, by rw [show a + 1 + j = a + (j + 1) from by omega]; exact he2⟩
        · rw [show a + 1 + k2 = a + (k2 + 1) from by omega]
          exact hsucc

lemma attemptLoop_trace_shape (p : Provider) (prompt : List Char) (d : ℚ) :
    ∀ n a, ∀ ev ∈ (attemptLoop p prompt d n a).2,
      (∃ i, ev = Ev.call p.name i) ∨ (∃ e, ev = Ev.log p.name e)
        ∨ ev = Ev.sleepRetry d := by
  intro n
  induction n using Nat.strong_induction_on with
  | _ n ih =>
    intro a ev hev
    match n with
    | 0 => simp [attemptLoop] at hev
    | 1 =>
      cases hre : p.run prompt a with
      | ok r =>
        rw [show (attemptLoop p prompt d 1 a).2 = [Ev.call p.name a]
          from by simp [attemptLoop, hre]] at hev
        exact Or.inl ⟨a, List.mem_singleton.mp hev⟩
      | error e =>
        rw [show (attemptLoop p prompt d 1 a).2 = [Ev.call p.name a, Ev.log p.name e]
          from by simp [attemptLoop, hre]] at hev
        rcases List.mem_cons.mp hev with h | h
        · exact Or.inl ⟨a, h⟩
        · exact Or.inr (Or.inl ⟨e, List.mem_singleton.mp h⟩)
    | (m + 2) =>
      cases hre : p.run prompt a with
      | ok r =>
        rw [show (attemptLoop p prompt d (m + 2) a).2 = [Ev.call p.name a]
          from by simp [attemptLoop, hre]] at hev
        exact Or.inl ⟨a, List.mem_singleton.mp hev⟩
      | error e =>
        rw [show (attemptLoop p prompt d (m + 2) a).2
            = Ev.call p.name a :: Ev.log p.name e :: Ev.sleepRetry d
              :: (attemptLoop p prompt d (m + 1) (a + 1)).2
          from by simp [attemptLoop, hre]] at hev
        rcases List.mem_cons.mp hev with h | h
        · exact Or.inl ⟨a, h⟩
        rcases List.mem_cons.mp h with h | h
        · exact Or.inr (Or.inl ⟨e, h⟩)
        rcases List.mem_cons.mp h with h | h
        · exact Or.inr (Or.inr h)
        · exact ih (m + 1) (by omega) (a + 1) ev h

lemma attemptLoop_callCount (p : Provider) (prompt : List Char) (d : ℚ) :
    ∀ n a, callCount (attemptLoop p prompt d n a).2 ≤ n := by
  intro n
  induction n using Nat.strong_induction_on with
  | _ n ih =>
    intro a
    match n with
    | 0 => simp [attemptLoop, callCount]
    | 1 =>
      cases hre : p.run prompt a with
      | ok r => simp [attemptLoop, hre, callCount, Ev.isCall]
      | error e => simp [attemptLoop, hre, callCount, Ev.isCall]
    | (m + 2) =>
      cases hre : p.run prompt a with
      | ok r => simp [attemptLoop, hre, callCount, Ev.isCall]
      | error e =>
        have h2 := ih (m + 1) (by omega) (a + 1)
        rw [show (attemptLoop p prompt d (m + 2) a).2
            = Ev.call p.name a :: Ev.log p.name e :: Ev.sleepRetry d
              :: (attemptLoop p prompt d (m + 1) (a + 1)).2
          from by simp [attemptLoop, hre]]
        simp [callCount, List.filter_cons, Ev.isCall] at h2 ⊢
        omega

lemma attemptLoop_last_log (p : Provider) (prompt : List Char) (d : ℚ) :
    ∀ n a, 1 ≤ n → (∀ i, ∃ e, p.run prompt i = Except.error e) →
      ∃ e, p.run prompt (a + n - 1) = Except.error e ∧
        Ev.log p.name e ∈ (attemptLoop p prompt d n a).2 := by
  intro n
  induction n using Nat.strong_induction_on with
  | _ n ih =>
    intro a h1 hf
    match n with
    | 1 =>
      obtain ⟨e, he⟩ := hf a
      refine ⟨e, by simpa using he, ?_⟩
      simp [attemptLoop, he]
    | (m + 2) =>
      obtain ⟨e, he⟩ := hf a
      obtain ⟨e2, he2, hmem⟩ := ih (m + 1) (by omega) (a + 1) (by omega) hf
      refine ⟨e2, ?_, ?_⟩
      · rw [show a + (m + 2) - 1 = a + 1 + (m + 1) - 1 from by omega]
        exact he2
      · rw [show (attemptLoop p prompt d (m + 2) a).2
            = Ev.call p.name a :: Ev.log p.name e :: Ev.sleepRetry d
              :: (attemptLoop p prompt d (m + 1) (a + 1)).2
          from by simp [attemptLoop, he]]
        exact List.mem_cons_of_mem _ (List.mem_cons_of_mem _ (List.mem_cons_of_mem _ hmem))

lemma fallbackGo_all_fail (prompt : List Char) (cfg : RateConfig) :
    ∀ provs, (∀ q ∈ provs, ∀ i, ∃ e, q.run prompt i = Except.error e) →
      fallbackGo prompt cfg provs
        = (.error "All providers failed", concatTraces prompt cfg provs) := by
  intro provs
  induction provs with
  | nil => intro _; rfl
  | cons q rest ih =>
    intro hf
    have h1 : (attemptLoop q prompt cfg.retry_delay cfg.max_retries 0).1 = none :=
      attemptLoop_none q prompt _ _ _ (hf q (by simp))
    rw [show fallbackGo prompt cfg (q :: rest)
        = ((fallbackGo prompt cfg rest).1,
           (attemptLoop q prompt cfg.retry_delay cfg.max_retries 0).2
             ++ (fallbackGo prompt cfg rest).2)
      from by simp [fallbackGo, h1]]
    rw [ih (fun q2 hq2 i => hf q2 (by simp [hq2]) i),
      show concatTraces prompt cfg (q :: rest)
        = (attemptLoop q prompt cfg.retry_delay cfg.max_retries 0).2
          ++ concatTraces prompt cfg rest from rfl]

lemma fallbackGo_success (prompt : List Char) (cfg : RateConfig)
    (p : Provider) (post : List Provider) (r : List Char) :
    ∀ pre, (∀ q ∈ pre, ∀ i, ∃ e, q.run prompt i = Except.error e) →
      (attemptLoop p prompt cfg.retry_delay cfg.max_retries 0).1 = some r →
      fallbackGo prompt cfg (pre ++ p :: post)
        = (.ok (r, p.name),
           concatTraces prompt cfg pre
             ++ (attemptLoop p prompt cfg.retry_delay cfg.max_retries 0).2) := by
  intro pre
  induction pre with
  | nil =>
    intro _ hsucc
    rw [List.nil_append,
      show fallbackGo prompt cfg (p :: post)
        = (.ok (r, p.name), (attemptLoop p prompt cfg.retry_delay cfg.max_retries 0).2)
      from by simp [fallbackGo, hsucc]]
    rfl
  | cons q pre2 ih =>
    intro hf hsucc
    have h1 : (attemptLoop q prompt cfg.retry_delay cfg.max_retries 0).1 = none :=
      attemptLoop_none q prompt _ _ _ (hf q (by simp))
    rw [List.cons_append,
      show fallbackGo prompt cfg (q :: (pre2 ++ p :: post))
        = ((fallbackGo prompt cfg (pre2 ++ p :: post)).1,
           (attemptLoop q prompt cfg.retry_delay cfg.max_retries 0).2
             ++ (fallbackGo prompt cfg (pre2 ++ p :: post)).2)
      from by simp [fallbackGo, h1]]
    rw [ih (fun q2 hq2 i => hf q2 (by simp [hq2]) i) hsucc]
    rw [show concatTraces prompt cfg (q :: pre2)
        = (attemptLoop q prompt cfg.retry_delay cfg.max_retries 0).2
          ++ concatTraces prompt cfg pre2 from rfl,
      List.append_assoc]

lemma fallbackGo_trace_shape (prompt : List Char) (cfg : RateConfig) :
    ∀ provs, ∀ ev ∈ (fallbackGo prompt cfg provs).2,
      (∃ nm i, ev = Ev.call nm i ∧ nm ∈ provs.map Provider.name)
        ∨ (∃ nm e, ev = Ev.log nm e) ∨ ev = Ev.sleepRetry cfg.retry_delay := by
  intro provs
  induction provs with
  | nil => intro ev hev; simp [fallbackGo] at hev
  | cons q rest ih =>
    intro ev hev
    have hsub : ev ∈ (attemptLoop q prompt cfg.retry_delay cfg.max_retries 0).2
        ∨ ev ∈ (fallbackGo prompt cfg rest).2 := by
      cases hq : (attemptLoop q prompt cfg.retry_delay cfg.max_retries 0).1 with
      | some r =>
        rw [show (fallbackGo prompt cfg (q :: rest)).2
            = (attemptLoop q prompt cfg.retry_delay cfg.max_retries 0).2
          from by simp [fallbackGo, hq]] at hev
        exact Or.inl hev
      | none =>
        rw [show (fallbackGo prompt cfg (q :: rest)).2
            = (attemptLoop q prompt cfg.retry_delay cfg.max_retries 0).2
              ++ (fallbackGo prompt cfg rest).2
          from by simp [fallbackGo, hq]] at hev
        exact List.mem_append.mp hev
    rcases hsub with h | h
    · rcases attemptLoop_trace_shape q prompt cfg.retry_delay cfg.max_retries 0 ev h with
        ⟨i, hi⟩ | ⟨e, he⟩ | hs
      · exact Or.inl ⟨q.name, i, hi, by simp⟩
      · exact Or.inr (Or.inl ⟨q.name, e, he⟩)
      · exact Or.inr (Or.inr hs)
    · rcases ih ev h with ⟨nm, i, hi, hmem⟩ | h2 | h2
      · exact Or.inl ⟨nm, i, hi, by simp; right; simpa using hmem⟩
      · exact Or.inr (Or.inl h2)
      · exact Or.inr (Or.inr h2)

lemma fallbackGo_callCount (prompt : List Char) (cfg : RateConfig) :
    ∀ provs, callCount (fallbackGo prompt cfg provs).2
      ≤ provs.length * cfg.max_retries := by
  intro provs
  induction provs with
  | nil => simp [fallbackGo, callCount]
  | cons q rest ih =>
    have hq := attemptLoop_callCount q prompt cfg.retry_delay cfg.max_retries 0
    cases hq1 : (attemptLoop q prompt cfg.retry_delay cfg.max_retries 0).1 with
    | some r =>
      rw [show (fallbackGo prompt cfg (q :: rest)).2
          = (attemptLoop q prompt cfg.retry_delay cfg.max_retries 0).2
        from by simp [fallbackGo, hq1]]
      calc callCount (attemptLoop q prompt cfg.retry_delay cfg.max_retries 0).2
          ≤ cfg.max_retries := hq
        _ ≤ (q :: rest).length * cfg.max_retries := by
            simp [List.length_cons]
            exact Nat.le_mul_of_pos_left _ (by omega)
    | none =>
      rw [show (fallbackGo prompt cfg (q :: rest)).2
          = (attemptLoop q prompt cfg.retry_delay cfg.max_retries 0).2
            ++ (fallbackGo prompt cfg rest).2
        from by simp [fallbackGo, hq1]]
      have hsplit : callCount
          ((attemptLoop q prompt cfg.retry_delay cfg.max_retries 0).2
            ++ (fallbackGo prompt cfg rest).2)
          = callCount (attemptLoop q prompt cfg.retry_delay cfg.max_retries 0).2
            + callCount (fallbackGo prompt cfg rest).2 := by
        simp [callCount, List.filter_append]
      rw [hsplit]
      have : (q :: rest).length * cfg.max_retries
          = cfg.max_retries + rest.length * cfg.max_retries := by
        simp [List.length_cons]
        ring
      omega


/-! Facts about the chunk loop of `process_large_text`. -/

lemma no_rate_filter {tr : List Ev} (h : ∀ ev ∈ tr, Ev.isRate ev = false) :
    tr.filter Ev.isRate = [] := by
  induction tr with
  | nil => rfl
  | cons ev tr2 ih =>
    rw [List.filter_cons, if_neg (by simp [h ev (by simp)])]
    exact ih (fun ev2 h2 => h ev2 (by simp [h2]))

lemma dispatch_no_rate (provs : List Provider) (prompt : List Char) (cfg : RateConfig) :
    ∀ ev ∈ (process_with_fallback provs prompt cfg).2, Ev.isRate ev = false := by
  intro ev hev
  rcases fallbackGo_trace_shape prompt cfg provs ev hev with
    ⟨nm, i, hi, _⟩ | ⟨nm, e, he⟩ | hs
  · rw [hi]; rfl
  · rw [he]; rfl
  · rw [hs]; rfl

lemma dispatch_retry_delay {prompt : List Char} {cfg : RateConfig}
    {provs : List Provider} {d : ℚ}
    (h : Ev.sleepRetry d ∈ (process_with_fallback provs prompt cfg).2) :
    d = cfg.retry_delay := by
  rcases fallbackGo_trace_shape prompt cfg provs _ h with
    ⟨nm, i, hi, _⟩ | ⟨nm, e, he⟩ | hs
  · exact absurd hi (by simp)
  · exact absurd he (by simp)
  · simpa using hs

lemma chunkRun_trace_mem (providers : List Provider) (cfg : Config) :
    ∀ chunks ev, ev ∈ (chunkRun providers cfg chunks).2 →
      (∃ c, c ∈ chunks
          ∧ ev ∈ (process_with_fallback providers (formatPrompt cfg c) cfg.rate).2)
        ∨ ev = Ev.sleepRate (60 / cfg.rate.requests_per_minute) := by
  intro chunks
  induction chunks with
  | nil => intro ev hev; simp [chunkRun] at hev
  | cons c rest ih =>
    intro ev hev
    cases ht : (process_with_fallback providers (formatPrompt cfg c) cfg.rate).1 with
    | error e =>
      rw [show (chunkRun providers cfg (c :: rest)).2
          = (process_with_fallback providers (formatPrompt cfg c) cfg.rate).2
        from by simp [chunkRun, ht]] at hev
      exact Or.inl ⟨c, by simp, hev⟩
    | ok rn =>
      obtain ⟨res, name⟩ := rn
      by_cases hrest : rest = []
      · subst hrest
        rw [show (chunkRun providers cfg [c]).2
            = (process_with_fallback providers (formatPrompt cfg c) cfg.rate).2
          from by simp [chunkRun, ht]] at hev
        exact Or.inl ⟨c, by simp, hev⟩
      · have hev2 : ev ∈ (process_with_fallback providers (formatPrompt cfg c) cfg.rate).2
            ++ Ev.sleepRate (60 / cfg.rate.requests_per_minute)
              :: (chunkRun providers cfg rest).2 := by
          cases ht2 : (chunkRun providers cfg rest).1 with
          | error e =>
            rw [show (chunkRun providers cfg (c :: rest)).2
                = (process_with_fallback providers (formatPrompt cfg c) cfg.rate).2
                  ++ Ev.sleepRate (60 / cfg.rate.requests_per_minute)
                    :: (chunkRun providers cfg rest).2
              from by simp [chunkRun, ht, hrest, ht2]] at hev
            exact hev
          | ok y =>
            obtain ⟨results, lastP⟩ := y
            rw [show (chunkRun providers cfg (c :: rest)).2
                = (process_with_fallback providers (formatPrompt cfg c) cfg.rate).2
                  ++ Ev.sleepRate (60 / cfg.rate.requests_per_minute)
                    :: (chunkRun providers cfg rest).2
              from by simp [chunkRun, ht, hrest, ht2]] at hev
            exact hev
        rcases List.mem_append.mp hev2 with h | h
        · exact Or.inl ⟨c, by simp, h⟩
        · rcases List.mem_cons.mp h with h | h
          · exact Or.inr h
          · rcases ih ev h with ⟨c2, hc2, hm⟩ | h2
            · exact Or.inl ⟨c2, by simp [hc2], hm⟩
            · exact Or.inr h2

lemma chunkRun_ok_rate (providers : List Provider) (cfg : Config) :
    ∀ chunks x tr, chunkRun providers cfg chunks = (.ok x, tr) →
      tr.filter Ev.isRate
        = List.replicate (chunks.length - 1)
            (Ev.sleepRate (60 / cfg.rate.requests_per_minute)) := by
  intro chunks
  induction chunks with
  | nil =>
    intro x tr h
    rw [show chunkRun providers cfg [] = (.ok ([], none), []) from rfl] at h
    injection h with h1 h2
    rw [← h2]
    rfl
  | cons c rest ih =>
    intro x tr h
    cases ht : (process_with_fallback providers (formatPrompt cfg c) cfg.rate).1 with
    | error e =>
      rw [show chunkRun providers cfg (c :: rest)
          = (.error e, (process_with_fallback providers (formatPrompt cfg c) cfg.rate).2)
        from by simp [chunkRun, ht]] at h
      have h2 := congrArg Prod.fst h
      simp at h2
    | ok rn =>
      obtain ⟨res, name⟩ := rn
      by_cases hrest : rest = []
      · subst hrest
        rw [show chunkRun providers cfg [c]
            = (.ok ([res], some name),
               (process_with_fallback providers (formatPrompt cfg c) cfg.rate).2)
          from by simp [chunkRun, ht]] at h
        injection h with h1 h2
        rw [← h2, no_rate_filter (dispatch_no_rate _ _ _)]
        rfl
      · cases ht2 : (chunkRun providers cfg rest).1 with
        | error e =>
          rw [show chunkRun providers cfg (c :: rest)
              = (.error e,
                 (process_with_fallback providers (formatPrompt cfg c) cfg.rate).2
                   ++ Ev.sleepRate (60 / cfg.rate.requests_per_minute)
                     :: (chunkRun providers cfg rest).2)
            from by simp [chunkRun, ht, hrest, ht2]] at h
          have h2 := congrArg Prod.fst h
          simp at h2
        | ok y =>
          obtain ⟨results, lastP⟩ := y
          rw [show chunkRun providers cfg (c :: rest)
              = (.ok (res :: results, lastP),
                 (process_with_fallback providers (formatPrompt cfg c) cfg.rate).2
                   ++ Ev.sleepRate (60 / cfg.rate.requests_per_minute)
                     :: (chunkRun providers cfg rest).2)
            from by simp [chunkRun, ht, hrest, ht2]] at h
          injection h with h1 h2
          have hch : chunkRun providers cfg rest
              = (.ok (results, lastP), (chunkRun providers cfg rest).2) := by
            have : chunkRun providers cfg rest
                = ((chunkRun providers cfg rest).1, (chunkRun providers cfg rest).2) := rfl
            rw [this, ht2]
          have hih := ih (results, lastP) (chunkRun providers cfg rest).2 hch
          rw [← h2, List.filter_append, no_rate_filter (dispatch_no_rate _ _ _),
            List.nil_append, List.filter_cons, if_pos (by rfl), hih]
          cases rest with
          | nil => exact absurd rfl hrest
          | cons r0 rest2 => simp [List.replicate_succ]

lemma chunkRun_error_prop (providers : List Provider) (cfg : Config)
    (c : List Char) (e : String) (trC : List Ev)
    (hc : process_with_fallback providers (formatPrompt cfg c) cfg.rate
      = (.error e, trC)) :
    ∀ pre post,
      (∀ c2 ∈ pre, ∃ r n t, process_with_fallback providers (formatPrompt cfg c2) cfg.rate
        = (.ok (r, n), t)) →
      ∃ trPre, chunkRun providers cfg (pre ++ c :: post) = (.error e, trPre ++ trC) := by
  intro pre
  induction pre with
  | nil =>
    intro post _
    refine ⟨[], ?_⟩
    have h1 : (process_with_fallback providers (formatPrompt cfg c) cfg.rate).1
        = .error e := by rw [hc]
    have h2 : (process_with_fallback providers (formatPrompt cfg c) cfg.rate).2
        = trC := by rw [hc]
    rw [List.nil_append,
      show chunkRun providers cfg (c :: post) = (.error e, trC)
        from by simp [chunkRun, h1, h2],
      List.nil_append]
  | cons c2 pre2 ih =>
    intro post hpre
    obtain ⟨r, nm, t2, hq⟩ := hpre c2 (by simp)
    obtain ⟨trPre, hrec⟩ := ih post (fun c3 h3 => hpre c3 (by simp [h3]))
    have h1 : (process_with_fallback providers (formatPrompt cfg c2) cfg.rate).1
        = .ok (r, nm) := by rw [hq]
    have hrest_ne : pre2 ++ c :: post ≠ [] := by simp
    have h2 : (chunkRun providers cfg (pre2 ++ c :: post)).1 = .error e := by rw [hrec]
    have h3 : (chunkRun providers cfg (pre2 ++ c :: post)).2 = trPre ++ trC := by
      rw [hrec]
    refine ⟨(process_with_fallback providers (formatPrompt cfg c2) cfg.rate).2
        ++ Ev.sleepRate (60 / cfg.rate.requests_per_minute) :: trPre, ?_⟩
    rw [List.cons_append,
      show chunkRun providers cfg (c2 :: (pre2 ++ c :: post))
        = (.error e,
           (process_with_fallback providers (formatPrompt cfg c2) cfg.rate).2
             ++ Ev.sleepRate (60 / cfg.rate.requests_per_minute)
               :: (chunkRun providers cfg (pre2 ++ c :: post)).2)
      from by simp [chunkRun, h1, hrest_ne, h2],
      h3]
    simp

lemma process_large_text_ok_chunkRun (providers : List Provider) (cfg : Config)
    (raw results : List Char) (lastP : Option String) (tr : List Ev)
    (hlen : MAX_CHUNK_SIZE < raw.length)
    (h : process_large_text providers raw cfg = (.ok (results, lastP), tr)) :
    ∃ rs, chunkRun providers cfg (split_text_into_chunks raw MAX_CHUNK_SIZE)
        = (.ok (rs, lastP), tr) ∧ joinBlank rs = results := by
  have hnle : ¬ raw.length ≤ MAX_CHUNK_SIZE := by omega
  cases hcr : (chunkRun providers cfg (split_text_into_chunks raw MAX_CHUNK_SIZE)).1 with
  | error e =>
    rw [show process_large_text providers raw cfg
        = (.error e, (chunkRun providers cfg (split_text_into_chunks raw MAX_CHUNK_SIZE)).2)
      from by simp [process_large_text, hnle, hcr]] at h
    have h2 := congrArg Prod.fst h
    simp at h2
  | ok y =>
    obtain ⟨rs, lp⟩ := y
    rw [show process_large_text providers raw cfg
        = (.ok (joinBlank rs, lp),
           (chunkRun providers cfg (split_text_into_chunks raw MAX_CHUNK_SIZE)).2)
      from by simp [process_large_text, hnle, hcr]] at h
    injection h with h1 h2
    injection h1 with h1
    injection h1 with h1a h1b
    refine ⟨rs, ?_, h1a⟩
    rw [show chunkRun providers cfg (split_text_into_chunks raw MAX_CHUNK_SIZE)
        = ((chunkRun providers cfg (split_text_into_chunks raw MAX_CHUNK_SIZE)).1,
           (chunkRun providers cfg (split_text_into_chunks raw MAX_CHUNK_SIZE)).2)
      from rfl, hcr, h1b, h2]


/-! Claim theorems for the chunker. -/

/-- C2, counterexample: the source regex class `[。.!?]` does not contain the
full-width `！` and `？`, so a text longer than `maxSize` whose only candidate
terminators are `！` is kept as a single sentence unit and a single oversized
chunk, not split at those characters as the claim states. -/
theorem fullwidth_terminators_not_split :
    isTerm '！' = false ∧ isTerm '？' = false
    ∧ 3 < "ab！cd！ef".toList.length
    ∧ reSplitSentences "ab！cd！ef".toList = ["ab！cd！ef".toList]
    ∧ split_text_into_chunks "ab！cd！ef".toList 3 = ["ab！cd！ef".toList] :=
  ⟨rfl, rfl, by decide, by decide, by decide⟩

/-- C2 (amended): the chunker segments text into sentence-like units at each
occurrence of one of the four terminator characters `.`, `!`, `?`, `。`
(whitespace following a terminator is consumed, so no unit after the first
begins with whitespace): inside a unit a terminator occurs only as the final
character, and every unit except the last ends with a terminator.  The
full-width `！` and `？` are not terminators. -/
theorem chunker_four_terminators (text : List Char) :
    (∀ u ∈ reSplitSentences text, ∀ c ∈ u.dropLast, isTerm c = false)
    ∧ (∀ u ∈ (reSplitSentences text).dropLast,
        ∃ c, u.getLast? = some c ∧ isTerm c = true)
    ∧ (∀ u ∈ (reSplitSentences text).tail, hns u = true)
    ∧ isTerm '。' = true ∧ isTerm '.' = true ∧ isTerm '!' = true ∧ isTerm '?' = true
    ∧ isTerm '！' = false ∧ isTerm '？' = false := by
  obtain ⟨h1, h2⟩ := reSplitGo_units text false [] (by simp)
  exact ⟨h1, h2, (reSplitGo_tail_hns text false [] (fun _ => rfl)).1,
    rfl, rfl, rfl, rfl, rfl, rfl⟩

/-- C2, witness: the amended theorem applied at a concrete mixed text. -/
theorem chunker_four_terminators_spot :
    ∀ u ∈ reSplitSentences "a. b！c".toList, ∀ c ∈ u.dropLast, isTerm c = false :=
  (chunker_four_terminators "a. b！c".toList).1

/-- C3, counterexample: for `length(text) ≤ maxSize` the chunker does not
return the input verbatim.  At `" a"` with `maxSize = 10` it strips the
leading space; at `"ab. c"` with `maxSize = 5` (length exactly `maxSize`) it
even returns two chunks. -/
theorem split_short_text_not_identity :
    (" a".toList.length ≤ 10 ∧ split_text_into_chunks " a".toList 10 ≠ [" a".toList])
    ∧ ("ab. c".toList.length ≤ 5
        ∧ split_text_into_chunks "ab. c".toList 5 = ["ab.".toList, "c".toList]) :=
  ⟨⟨by decide, by decide⟩, by decide, by decide⟩

/-- C3 (amended): the chunker returns exactly one chunk equal to the input
for already-normalized input strictly below the limit: when the text equals
the single-space join of its stripped sentence units, has at least one unit,
and `length(text) < maxSize`, the result is the single chunk `[text]`.  (For
general text of length at most `maxSize` the output is normalized, may be
empty, or may even hold two chunks; the orchestrator short-circuits
`length(text) ≤ maxSize` before ever calling the chunker.) -/
theorem split_single_chunk_normalized (text : List Char) (maxSize : Nat)
    (hnorm : text = joinSpace (sentenceUnits text))
    (hne : sentenceUnits text ≠ [])
    (hlen : text.length < maxSize) :
    split_text_into_chunks text maxSize = [text] := by
  have hlen2 : sizeSum (sentenceUnits text) ≤ maxSize := by
    have h1 := joinSpace_length hne
    rw [← hnorm] at h1
    omega
  rw [show split_text_into_chunks text maxSize
      = chunkLoop maxSize (reSplitSentences text) [] 0 from rfl,
    chunkLoop_single maxSize (reSplitSentences text) [] 0 rfl
      (by simpa using hlen2) (by simpa [sentenceUnits] using hne),
    List.nil_append,
    show unitsOf (reSplitSentences text) = sentenceUnits text from rfl,
    ← hnorm]

/-- C3, witness: the amended theorem applied at a concrete normalized text. -/
theorem split_single_chunk_normalized_spot :
    split_text_into_chunks "ab. cd".toList 10 = ["ab. cd".toList] :=
  split_single_chunk_normalized "ab. cd".toList 10 (by decide) (by decide) (by decide)

/-- C6: every chunk is at most `maxSize` long, except that a chunk may be a
single sentence unit which alone exceeds `maxSize`; conversely an oversized
sentence unit is never further split and always appears as a chunk of its
own. -/
theorem chunk_size_bound (text : List Char) (maxSize : Nat) :
    (∀ c ∈ split_text_into_chunks text maxSize,
      c.length ≤ maxSize ∨ (c ∈ sentenceUnits text ∧ maxSize < c.length))
    ∧ ∀ u ∈ sentenceUnits text, maxSize < u.length →
        u ∈ split_text_into_chunks text maxSize := by
  constructor
  · intro c hc
    rcases chunkLoop_bound maxSize (reSplitSentences text) [] 0 rfl
        (fun h => absurd rfl h) c hc with h | h | h
    · exact Or.inl h
    · simp at h
    · by_cases h2 : c.length ≤ maxSize
      · exact Or.inl h2
      · exact Or.inr ⟨h, by omega⟩
  · intro u hu hlen
    exact chunkLoop_oversized maxSize (reSplitSentences text) [] 0 u rfl hlen
      (fun h => absurd h (List.not_mem_nil u)) (Or.inr hu)

/-- C6, witness: a nine-character sentence unit exceeds `maxSize = 5` and
shows up as its own chunk. -/
theorem chunk_size_bound_spot :
    "abcdefgh.".toList ∈ split_text_into_chunks "abcdefgh. x. y.".toList 5 :=
  (chunk_size_bound "abcdefgh. x. y.".toList 5).2 "abcdefgh.".toList
    (by decide) (by decide)

/-- C7: stripping each chunk and rejoining the chunks with single spaces
yields exactly the single-space join of the stripped non-empty sentence units
of the input, for every text and every `maxSize` — all non-whitespace
sentence content is preserved in order, whitespace-only units are dropped,
and chunk order is source order. -/
theorem chunk_coverage (text : List Char) (maxSize : Nat) :
    joinSpace ((split_text_into_chunks text maxSize).map strip)
      = joinSpace (sentenceUnits text) := by
  rw [show split_text_into_chunks text maxSize
      = chunkLoop maxSize (reSplitSentences text) [] 0 from rfl,
    map_strip_eq_self
      (chunkLoop_clean maxSize (reSplitSentences text) [] 0 (by intro u hu; simp at hu)),
    chunkLoop_join]
  rfl

/-- C7, witness: the coverage equation evaluated at a concrete text. -/
theorem chunk_coverage_spot :
    joinSpace ((split_text_into_chunks "a.  b!c ".toList 3).map strip)
      = joinSpace (sentenceUnits "a.  b!c ".toList) :=
  chunk_coverage "a.  b!c ".toList 3


/-! Claim theorems for the dispatcher. -/

lemma mem_concatTraces {prompt : List Char} {cfg : RateConfig} {q : Provider}
    {ev : Ev} :
    ∀ {provs : List Provider}, q ∈ provs →
      ev ∈ (attemptLoop q prompt cfg.retry_delay cfg.max_retries 0).2 →
      ev ∈ concatTraces prompt cfg provs := by
  intro provs
  induction provs with
  | nil => intro hq; simp at hq
  | cons p rest ih =>
    intro hq hev
    rcases List.mem_cons.mp hq with hq | hq
    · subst hq
      exact List.mem_append_left _ hev
    · exact List.mem_append_right _ (ih hq hev)

lemma concatTraces_call_names {prompt : List Char} {cfg : RateConfig}
    {nm : String} {i : Nat} :
    ∀ {provs : List Provider}, Ev.call nm i ∈ concatTraces prompt cfg provs →
      nm ∈ provs.map Provider.name := by
  intro provs
  induction provs with
  | nil => intro h; simp [concatTraces] at h
  | cons q rest ih =>
    intro h
    rcases List.mem_append.mp h with h | h
    · rcases attemptLoop_trace_shape q prompt cfg.retry_delay cfg.max_retries 0 _ h with
        ⟨i2, hev⟩ | ⟨e2, hev⟩ | hev
      · injection hev with h1 h2
        simp [h1]
      · exact absurd hev (by simp)
      · exact absurd hev (by simp)
    · simp [ih h]

/-- C10: dispatch over an empty provider list fails terminally at once with
the constant error, making no provider call and sleeping no delay (the event
trace is empty). -/
theorem dispatcher_empty_providers (prompt : List Char) (cfg : RateConfig) :
    process_with_fallback [] prompt cfg = (Except.error "All providers failed", []) :=
  rfl

/-- C1, counterexample: the terminal error raised when all providers are
exhausted is the constant `RuntimeError("All providers failed")`.  Two runs
with different provider identities and different per-attempt errors produce
the very same error value, so the raised error carries neither the attempted
providers nor their last errors. -/
theorem all_fail_error_carries_nothing :
    (process_with_fallback [⟨"alpha", fun _ _ => Except.error "timeout"⟩]
        "x".toList cfg3).1
      = Except.error "All providers failed"
    ∧ (process_with_fallback [⟨"beta", fun _ _ => Except.error "quota"⟩]
        "x".toList cfg3).1
      = Except.error "All providers failed"
    ∧ (process_with_fallback [⟨"alpha", fun _ _ => Except.error "timeout"⟩]
        "x".toList cfg3).1
      = (process_with_fallback [⟨"beta", fun _ _ => Except.error "quota"⟩]
        "x".toList cfg3).1 :=
  ⟨rfl, rfl, rfl⟩

/-- C1 (amended): when every provider exhausts its attempts, dispatch fails
terminally with the constant error `All providers failed`; the identity of
each attempted provider and its last error are surfaced only on the console
(a `log` event for every provider paired with the error of its final
attempt), not inside the raised error. -/
theorem dispatcher_exhaustion_error (providers : List Provider)
    (prompt : List Char) (cfg : RateConfig) (hmr : 1 ≤ cfg.max_retries)
    (hfail : ∀ q ∈ providers, ∀ i, ∃ e, q.run prompt i = Except.error e) :
    (process_with_fallback providers prompt cfg).1
      = Except.error "All providers failed"
    ∧ ∀ q ∈ providers, ∃ e, q.run prompt (cfg.max_retries - 1) = Except.error e
        ∧ Ev.log q.name e ∈ (process_with_fallback providers prompt cfg).2 := by
  have hall := fallbackGo_all_fail prompt cfg providers hfail
  constructor
  · rw [show (process_with_fallback providers prompt cfg).1
        = (fallbackGo prompt cfg providers).1 from rfl, hall]
  · intro q hq
    obtain ⟨e, he, hmem⟩ :=
      attemptLoop_last_log q prompt cfg.retry_delay cfg.max_retries 0 hmr (hfail q hq)
    refine ⟨e, by simpa using he, ?_⟩
    rw [show (process_with_fallback providers prompt cfg).2
        = (fallbackGo prompt cfg providers).2 from rfl, hall]
    exact mem_concatTraces hq hmem

/-- C1, witness: the amended theorem applied to a single always-failing
provider. -/
theorem dispatcher_exhaustion_error_spot :
    (process_with_fallback [pFail] "x".toList cfg3).1
      = Except.error "All providers failed"
    ∧ ∀ q ∈ [pFail], ∃ e, q.run "x".toList (cfg3.max_retries - 1) = Except.error e
        ∧ Ev.log q.name e ∈ (process_with_fallback [pFail] "x".toList cfg3).2 :=
  dispatcher_exhaustion_error [pFail] "x".toList cfg3 (by decide)
    (by intro q hq i; rw [List.mem_singleton.mp hq]; exact ⟨"boom", rfl⟩)

/-- C4: a provider that fails every attempt under `max_retries = 3` is
invoked exactly three times, with a `retry_delay` pause before attempts 2
and 3 and none after attempt 3, after which the dispatcher moves on to the
remaining providers (or fails terminally); moreover the total number of
provider invocations in any dispatch is bounded by
`providers × max_retries`, so no provider is ever retried indefinitely. -/
theorem dispatcher_retry_bound (p : Provider) (rest : List Provider)
    (prompt : List Char) (cfg : RateConfig) (h3 : cfg.max_retries = 3)
    (hf : ∀ i, ∃ e, p.run prompt i = Except.error e) :
    (∃ e0 e1 e2, p.run prompt 0 = Except.error e0
      ∧ p.run prompt 1 = Except.error e1
      ∧ p.run prompt 2 = Except.error e2
      ∧ process_with_fallback (p :: rest) prompt cfg
        = ((process_with_fallback rest prompt cfg).1,
           Ev.call p.name 0 :: Ev.log p.name e0 :: Ev.sleepRetry cfg.retry_delay
             :: Ev.call p.name 1 :: Ev.log p.name e1 :: Ev.sleepRetry cfg.retry_delay
               :: Ev.call p.name 2 :: Ev.log p.name e2
                 :: (process_with_fallback rest prompt cfg).2))
    ∧ ∀ provs : List Provider,
        callCount (process_with_fallback provs prompt cfg).2
          ≤ provs.length * cfg.max_retries := by
  constructor
  · obtain ⟨e0, he0⟩ := hf 0
    obtain ⟨e1, he1⟩ := hf 1
    obtain ⟨e2, he2⟩ := hf 2
    refine ⟨e0, e1, e2, he0, he1, he2, ?_⟩
    have htrace : attemptLoop p prompt cfg.retry_delay 3 0
        = (none, [Ev.call p.name 0, Ev.log p.name e0, Ev.sleepRetry cfg.retry_delay,
            Ev.call p.name 1, Ev.log p.name e1, Ev.sleepRetry cfg.retry_delay,
            Ev.call p.name 2, Ev.log p.name e2]) := by
      simp [attemptLoop, he0, he1, he2]
    have hnone : (attemptLoop p prompt cfg.retry_delay cfg.max_retries 0).1 = none := by
      rw [h3, htrace]
    rw [show process_with_fallback (p :: rest) prompt cfg
        = ((fallbackGo prompt cfg rest).1,
           (attemptLoop p prompt cfg.retry_delay cfg.max_retries 0).2
             ++ (fallbackGo prompt cfg rest).2)
      from by simp [process_with_fallback, fallbackGo, hnone],
      h3, htrace]
    simp [process_with_fallback]
  · intro provs
    exact fallbackGo_callCount prompt cfg provs

/-- C4, witness: the retry-bound theorem applied to the always-failing
fixture provider (observed trace) plus the general invocation bound. -/
theorem dispatcher_retry_bound_spot :
    process_with_fallback [pFail] "x".toList cfg3
      = (Except.error "All providers failed",
         [Ev.call "F" 0, Ev.log "F" "boom", Ev.sleepRetry 5,
          Ev.call "F" 1, Ev.log "F" "boom", Ev.sleepRetry 5,
          Ev.call "F" 2, Ev.log "F" "boom"]) := by
  obtain ⟨⟨e0, e1, e2, he0, he1, he2, heq⟩, hbound⟩ :=
    dispatcher_retry_bound pFail [] "x".toList cfg3 rfl (fun i => ⟨"boom", rfl⟩)
  injection he0 with he0
  injection he1 with he1
  injection he2 with he2
  rw [heq, ← he0, ← he1, ← he2]
  rfl

/-- C5: providers are attempted strictly in list order; with every provider
before `p` always failing and `p` first succeeding at attempt `k`, dispatch
returns `p`'s result paired with `p`'s name, its trace is exactly the full
failure traces of the earlier providers (in order) followed by `p`'s own
attempts, and every provider invocation in the trace names one of the
earlier providers or `p` — providers after `p` are never invoked. -/
theorem dispatcher_fallback_order (pre : List Provider) (p : Provider)
    (post : List Provider) (prompt : List Char) (cfg : RateConfig) (k : Nat)
    (r : List Char)
    (hpre : ∀ q ∈ pre, ∀ i, ∃ e, q.run prompt i = Except.error e)
    (hk : k < cfg.max_retries)
    (hbefore : ∀ j, j < k → ∃ e, p.run prompt j = Except.error e)
    (hsucc : p.run prompt k = Except.ok r) :
    process_with_fallback (pre ++ p :: post) prompt cfg
      = (.ok (r, p.name),
         concatTraces prompt cfg pre
           ++ (attemptLoop p prompt cfg.retry_delay cfg.max_retries 0).2)
    ∧ ∀ nm i, Ev.call nm i ∈ (process_with_fallback (pre ++ p :: post) prompt cfg).2 →
        nm ∈ pre.map Provider.name ∨ nm = p.name := by
  have hsome : (attemptLoop p prompt cfg.retry_delay cfg.max_retries 0).1 = some r :=
    attemptLoop_some p prompt cfg.retry_delay cfg.max_retries 0 k r hk
      (fun j hj => by simpa using hbefore j hj) (by simpa using hsucc)
  have heq := fallbackGo_success prompt cfg p post r pre hpre hsome
  refine ⟨heq, ?_⟩
  intro nm i hmem
  have h2 : (fallbackGo prompt cfg (pre ++ p :: post)).2
      = concatTraces prompt cfg pre
        ++ (attemptLoop p prompt cfg.retry_delay cfg.max_retries 0).2 := by
    rw [heq]
  rw [show (process_with_fallback (pre ++ p :: post) prompt cfg).2
      = (fallbackGo prompt cfg (pre ++ p :: post)).2 from rfl, h2] at hmem
  rcases List.mem_append.mp hmem with h | h
  · exact Or.inl (concatTraces_call_names h)
  · rcases attemptLoop_trace_shape p prompt cfg.retry_delay cfg.max_retries 0 _ h with
      ⟨i2, hev⟩ | ⟨e2, hev⟩ | hev
    · injection hev with h1 h2
      exact Or.inr h1
    · exact absurd hev (by simp)
    · exact absurd hev (by simp)

/-- C5, witness: with `[F, P, C]` where `F` always fails and `P` succeeds
immediately, dispatch returns `P`'s result and the trace invokes only `F`
and `P`, never `C`. -/
theorem dispatcher_fallback_order_spot :
    process_with_fallback ([pFail] ++ pOkP :: [pC]) "x".toList cfg3
      = (.ok ("r".toList, pOkP.name),
         concatTraces "x".toList cfg3 [pFail]
           ++ (attemptLoop pOkP "x".toList cfg3.retry_delay cfg3.max_retries 0).2)
    ∧ ∀ nm i, Ev.call nm i
        ∈ (process_with_fallback ([pFail] ++ pOkP :: [pC]) "x".toList cfg3).2 →
        nm ∈ [pFail].map Provider.name ∨ nm = pOkP.name :=
  dispatcher_fallback_order [pFail] pOkP [pC] "x".toList cfg3 0 "r".toList
    (by intro q hq i; rw [List.mem_singleton.mp hq]; exact ⟨"boom", rfl⟩)
    (by decide) (fun j hj => absurd hj (Nat.not_lt_zero j)) rfl


/-! Claim theorems for the chunked orchestrator. -/

lemma process_large_text_of_chunkRun_error {providers : List Provider}
    {cfg : Config} {raw : List Char} {e : String} {tr2 : List Ev}
    (hnle : ¬ raw.length ≤ MAX_CHUNK_SIZE)
    (hcr : chunkRun providers cfg (split_text_into_chunks raw MAX_CHUNK_SIZE)
      = (.error e, tr2)) :
    process_large_text providers raw cfg = (.error e, tr2) := by
  have h1 : (chunkRun providers cfg (split_text_into_chunks raw MAX_CHUNK_SIZE)).1
      = .error e := by rw [hcr]
  have h2 : (chunkRun providers cfg (split_text_into_chunks raw MAX_CHUNK_SIZE)).2
      = tr2 := by rw [hcr]
  simp [process_large_text, hnle, h1, h2]

/-- C8: in a successful multi-chunk run of `process_large_text`, the rate
window sleeps in the trace are exactly `chunks - 1` events of value
`60 / requests_per_minute`, one after every chunk except the last; every
retry sleep in the trace has the `retry_delay` value; and a dispatch trace
(hence the pause between retry attempts of one provider) never holds a rate
window sleep. -/
theorem rate_window_between_chunks (providers : List Provider) (cfg : Config)
    (raw results : List Char) (lastP : Option String) (tr : List Ev)
    (hlen : MAX_CHUNK_SIZE < raw.length)
    (h : process_large_text providers raw cfg = (.ok (results, lastP), tr)) :
    tr.filter Ev.isRate
      = List.replicate ((split_text_into_chunks raw MAX_CHUNK_SIZE).length - 1)
          (Ev.sleepRate (60 / cfg.rate.requests_per_minute))
    ∧ (∀ d, Ev.sleepRetry d ∈ tr → d = cfg.rate.retry_delay)
    ∧ ∀ prompt, ((process_with_fallback providers prompt cfg.rate).2).filter Ev.isRate
        = [] := by
  obtain ⟨rs, hcr, hjoin⟩ :=
    process_large_text_ok_chunkRun providers cfg raw results lastP tr hlen h
  refine ⟨chunkRun_ok_rate providers cfg _ (rs, lastP) tr hcr, ?_, ?_⟩
  · intro d hd
    have h2 : tr
        = (chunkRun providers cfg (split_text_into_chunks raw MAX_CHUNK_SIZE)).2 := by
      rw [hcr]
    rw [h2] at hd
    rcases chunkRun_trace_mem providers cfg _ _ hd with ⟨c, _, hm⟩ | h3
    · exact dispatch_retry_delay hm
    · exact absurd h3 (by simp)
  · intro prompt
    exact no_rate_filter (dispatch_no_rate providers prompt cfg.rate)

/-- C8, witness: a 12001-character single-sentence text is one oversized
chunk; its successful run sleeps no rate delay (`chunks - 1 = 0`) and its
dispatch traces hold no rate sleeps. -/
theorem rate_window_between_chunks_spot :
    [Ev.call "P" 0].filter Ev.isRate
      = List.replicate
          ((split_text_into_chunks (List.replicate 12001 'a') MAX_CHUNK_SIZE).length - 1)
          (Ev.sleepRate (60 / cfgC.rate.requests_per_minute))
    ∧ (∀ d, Ev.sleepRetry d ∈ [Ev.call "P" 0] → d = cfgC.rate.retry_delay)
    ∧ ∀ prompt, ((process_with_fallback [pOkP] prompt cfgC.rate).2).filter Ev.isRate
        = [] := by
  have hplain : ∀ c ∈ List.replicate 12001 'a', isTerm c = false ∧ pySpace c = false := by
    intro c hc
    rw [List.eq_of_mem_replicate hc]
    exact ⟨rfl, rfl⟩
  have hsplit : split_text_into_chunks (List.replicate 12001 'a') MAX_CHUNK_SIZE
      = [List.replicate 12001 'a'] :=
    split_all_plain MAX_CHUNK_SIZE hplain (by
      intro hnil
      have h0 := congrArg List.length hnil
      rw [List.length_replicate] at h0
      simp at h0)
  have hlen : MAX_CHUNK_SIZE < (List.replicate 12001 'a').length := by
    rw [List.length_replicate]
    decide
  have hrun : process_large_text [pOkP] (List.replicate 12001 'a') cfgC
      = (.ok ("r".toList, some "P"), [Ev.call "P" 0]) := by
    unfold process_large_text
    rw [if_neg (Nat.not_le.mpr hlen), hsplit]
    rfl
  exact rate_window_between_chunks [pOkP] cfgC (List.replicate 12001 'a')
    "r".toList (some "P") [Ev.call "P" 0] hlen hrun

/-- C9: if the dispatcher fails terminally on any chunk of a multi-chunk
document (every earlier chunk having dispatched successfully), the whole
`process_large_text` run fails at once with that same error; the events stop
at the failing chunk's dispatch trace, so later chunks are never dispatched,
and the error outcome carries no result text — the results of the earlier
chunks are discarded, never partially emitted. -/
theorem chunk_failure_aborts_document (providers : List Provider) (cfg : Config)
    (raw : List Char) (pre post : List (List Char)) (c : List Char) (e : String)
    (trC : List Ev)
    (hlen : MAX_CHUNK_SIZE < raw.length)
    (hsplit : split_text_into_chunks raw MAX_CHUNK_SIZE = pre ++ c :: post)
    (hpre : ∀ c2 ∈ pre, ∃ r n t,
      process_with_fallback providers (formatPrompt cfg c2) cfg.rate = (.ok (r, n), t))
    (hc : process_with_fallback providers (formatPrompt cfg c) cfg.rate
      = (.error e, trC)) :
    ∃ trPre, process_large_text providers raw cfg = (.error e, trPre ++ trC) := by
  obtain ⟨trPre, hcr⟩ := chunkRun_error_prop providers cfg c e trC hc pre post hpre
  refine ⟨trPre, process_large_text_of_chunkRun_error (Nat.not_le.mpr hlen) ?_⟩
  rw [hsplit]
  exact hcr

/-- C9, witness: a 12001-character document whose single chunk exhausts the
only (always-failing) provider aborts with the terminal dispatch error and
no result. -/
theorem chunk_failure_aborts_document_spot :
    ∃ trPre, process_large_text [pFail] (List.replicate 12001 'a') cfgC
      = (.error "All providers failed",
         trPre ++ [Ev.call "F" 0, Ev.log "F" "boom", Ev.sleepRetry 5,
           Ev.call "F" 1, Ev.log "F" "boom", Ev.sleepRetry 5,
           Ev.call "F" 2, Ev.log "F" "boom"]) := by
  have hplain : ∀ c ∈ List.replicate 12001 'a', isTerm c = false ∧ pySpace c = false := by
    intro c hc
    rw [List.eq_of_mem_replicate hc]
    exact ⟨rfl, rfl⟩
  have hsplit : split_text_into_chunks (List.replicate 12001 'a') MAX_CHUNK_SIZE
      = [] ++ List.replicate 12001 'a' :: [] := by
    rw [split_all_plain MAX_CHUNK_SIZE hplain (by
      intro hnil
      have h0 := congrArg List.length hnil
      rw [List.length_replicate] at h0
      simp at h0)]
    rfl
  exact chunk_failure_aborts_document [pFail] cfgC (List.replicate 12001 'a')
    [] [] (List.replicate 12001 'a') "All providers failed" _
    (by rw [List.length_replicate]; decide) hsplit
    (by intro c2 h2; exact absurd h2 (List.not_mem_nil c2))
    rfl


end SrtProc
